import Mathlib

/-!
Verification of the note-store specification against a shallow embedding of
`store.py`. Timestamps in the source are ISO-8601 strings at second precision
(`datetime.now().isoformat(timespec="seconds")`); for strings of that fixed
format lexicographic order coincides with chronological order, so a timestamp
is modelled as a `Nat` clock reading supplied to each operation. Python
strings are modelled as lists of characters.
-/

/-- Clock reading handed to an operation, standing for the string produced by
one `datetime.now().isoformat(timespec="seconds")` call. -/
abbrev Timestamp := Nat

/-- Embedding of the `Note` dataclass (store.py lines 13-33) in the
normalized form produced by `Note.to_dict`: `tags` defaulted to the empty
list and both timestamps set. -/
structure Note where
  id : Nat
  text : List Char
  done : Bool
  tags : List (List Char)
  created_at : Timestamp
  updated_at : Timestamp
deriving DecidableEq

/-- State of the backing file at parse granularity: `none` means the file is
missing, `some none` means the file exists but is not valid JSON (the
`json.JSONDecodeError` case), `some (some ns)` means it parses to `ns`. -/
abbrev FileState := Option (Option (List Note))

namespace NoteStore

/-- Embedding of `NoteStore._read` (store.py 43-51): a missing file reads as
`[]`, an unparsable file reads as `[]`, otherwise the parsed collection. The
function is total: the read path never raises on parse failure. -/
def read : FileState → List Note
  | none => []
  | some none => []
  | some (some ns) => ns

/-- Largest id present in the collection, `0` when empty: the
`max((note.get("id", 0) for note in notes), default=0)` of `_next_id`. -/
def maxId (notes : List Note) : Nat :=
  (notes.map (fun n => n.id)).foldr max 0

/-- Embedding of `NoteStore._next_id` (store.py 71-73): one more than the
largest currently present id (or than 0 for an empty collection). -/
def next_id (notes : List Note) : Nat :=
  maxId notes + 1

/-- Embedding of the `KeyError` raised by `NoteStore._find_idx`
(store.py 86-91) when no note has the requested id. -/
inductive Err where
  | notFound (note_id : Nat)
deriving DecidableEq

/-- Embedding of `_find_idx` followed by in-place mutation of the found
index: rewrite the first note whose `id` matches, returning the updated
collection together with the updated note, or `none` when no note matches
(the `KeyError` path). -/
def updateById (notes : List Note) (note_id : Nat) (g : Note → Note) :
    Option (List Note × Note) :=
  match notes with
  | [] => none
  | n :: rest =>
    if n.id == note_id then some (g n :: rest, g n)
    else
      match updateById rest note_id g with
      | none => none
      | some (rest2, m) => some (n :: rest2, m)

/-- Embedding of `_find_idx` followed by `notes.pop(idx)` (store.py 115-120):
drop the first note whose `id` matches, or `none` when no note matches. -/
def removeById (notes : List Note) (note_id : Nat) : Option (List Note) :=
  match notes with
  | [] => none
  | n :: rest =>
    if n.id == note_id then some rest
    else
      match removeById rest note_id with
      | none => none
      | some rest2 => some (n :: rest2)

/-- Embedding of `NoteStore.add` (store.py 75-84) combined with
`Note.to_dict` (store.py 23-33): the new note gets `id = _next_id(notes)`,
`tags = tags or []`, `done = False` and `created_at = updated_at = now`; it
is appended to the collection read from the file and the whole collection is
persisted. Returns the created note and the file state after
`_write_atomic`. -/
def add (f : FileState) (text : List Char) (tags : Option (List (List Char)))
    (now : Timestamp) : Note × FileState :=
  let notes := read f
  let n : Note :=
    { id := next_id notes, text := text, done := false,
      tags := tags.getD [], created_at := now, updated_at := now }
  (n, some (some (notes ++ [n])))

/-- Embedding of `NoteStore.set_done` (store.py 93-102): set `done` and
refresh `updated_at` on the note with the given id, persist, and return the
updated note; on a missing id the `KeyError` propagates and the file is left
untouched. -/
def set_done (f : FileState) (note_id : Nat) (d : Bool) (now : Timestamp) :
    Except Err Note × FileState :=
  match updateById (read f) note_id
      (fun n => { n with done := d, updated_at := now }) with
  | none => (.error (.notFound note_id), f)
  | some (ns2, m) => (.ok m, some (some ns2))

/-- Embedding of `NoteStore.edit` (store.py 104-113): replace `text` and
refresh `updated_at` on the note with the given id, persist, and return the
updated note; on a missing id the `KeyError` propagates and the file is left
untouched. -/
def edit (f : FileState) (note_id : Nat) (new_text : List Char)
    (now : Timestamp) : Except Err Note × FileState :=
  match updateById (read f) note_id
      (fun n => { n with text := new_text, updated_at := now }) with
  | none => (.error (.notFound note_id), f)
  | some (ns2, m) => (.ok m, some (some ns2))

/-- Embedding of `NoteStore.remove` (store.py 115-120): drop the note with
the given id and persist the reduced collection; on a missing id the
`KeyError` propagates and the file is left untouched. -/
def remove (f : FileState) (note_id : Nat) : Except Err Unit × FileState :=
  match removeById (read f) note_id with
  | none => (.error (.notFound note_id), f)
  | some ns2 => (.ok (), some (some ns2))

/-- Insert a note into an already descending-sorted list, placing it after
every note of greater or equal id: with `sort_desc` this models the stable
descending sort `sorted(notes, key=lambda n: n.get("id", 0), reverse=True)`
of `NoteStore.list`. -/
def insert_desc (x : Note) : List Note → List Note
  | [] => [x]
  | y :: ys => if y.id < x.id then x :: y :: ys else y :: insert_desc x ys

/-- Stable descending-by-id sort, processing the collection left to right. -/
def sort_desc (notes : List Note) : List Note :=
  notes.foldl (fun acc x => insert_desc x acc) []

/-- Embedding of `NoteStore.list` (store.py 62-69): read the collection,
drop completed notes unless `include_done`, and sort by id descending. The
method performs no write, so the file state it leaves behind is the one it
was given. -/
def list (f : FileState) (include_done : Bool) : List Note × FileState :=
  let notes := read f
  let notes := if include_done then notes else notes.filter (fun n => !n.done)
  (sort_desc notes, f)

/-- Character-wise lowercasing, modelling Python `str.lower()`. -/
def lowerChars (s : List Char) : List Char := s.map Char.toLower

/-- Does `needle` occur as an initial segment of the second list? Helper for
the Python substring test. -/
def startsChars : List Char → List Char → Bool
  | [], _ => true
  | _ :: _, [] => false
  | c :: cs, d :: ds => c == d && startsChars cs ds

/-- Modelling the Python substring test `needle in hay` on strings: true
when `needle` occurs contiguously anywhere in the second list. -/
def containsSub (needle : List Char) : List Char → Bool
  | [] => startsChars needle []
  | d :: ds => startsChars needle (d :: ds) || containsSub needle ds

/-- Embedding of the inner `matches_query` of `NoteStore.search`
(store.py 126-129), applied to the already-lowercased query: the query
occurs in the lowercased text or in some lowercased tag. -/
def matches_query (query_lower : List Char) (n : Note) : Bool :=
  containsSub query_lower (lowerChars n.text)
    || n.tags.any (fun t => containsSub query_lower (lowerChars t))

/-- Embedding of `NoteStore.search` (store.py 122-131): keep the notes
matching the lowercased query, in on-disk order. The method performs no
write, so the file state it leaves behind is the one it was given. -/
def search (f : FileState) (query : List Char) : List Note × FileState :=
  ((read f).filter (matches_query (lowerChars query)), f)

/-- Filesystem view for the atomicity claim: the canonical path and the
temporary path `<path>.tmp` used by `_write_atomic` (store.py 53-60), with
contents tracked at parse granularity. -/
structure FS where
  canonical : FileState
  temp : Option FileState
deriving DecidableEq

/-- Step one of `_write_atomic` (store.py 57-58): write the serialized new
collection to the temporary file. -/
def writeTempStep (fs : FS) (content : FileState) : FS :=
  { fs with temp := some content }

/-- Step two of `_write_atomic` (store.py 60): `os.replace(temp_path,
self.path)` atomically moves the temporary file over the canonical path. -/
def replaceStep (fs : FS) : FS :=
  match fs.temp with
  | none => fs
  | some c => { canonical := c, temp := none }

/-- Embedding of `NoteStore._write_atomic` (store.py 53-60): write the
complete new collection to the temporary file first, then replace the
canonical path with it. -/
def write_atomic (fs : FS) (notes : List Note) : FS :=
  replaceStep (writeTempStep fs (some (some notes)))

/-- The four persisting operations of the store. -/
inductive WOp where
  | wadd (text : List Char) (tags : Option (List (List Char)))
  | wset_done (note_id : Nat) (d : Bool)
  | wedit (note_id : Nat) (new_text : List Char)
  | wremove (note_id : Nat)

/-- Collection a persisting operation hands to `_write_atomic`; `none` when
the operation raises `KeyError` before reaching any write. -/
def newCollection (op : WOp) (notes : List Note) (now : Timestamp) :
    Option (List Note) :=
  match op with
  | .wadd tx tg =>
    some (notes ++ [{ id := next_id notes, text := tx, done := false,
                      tags := tg.getD [], created_at := now,
                      updated_at := now }])
  | .wset_done i d =>
    (updateById notes i (fun n => { n with done := d, updated_at := now })).map
      (fun p => p.1)
  | .wedit i tx =>
    (updateById notes i (fun n => { n with text := tx, updated_at := now })).map
      (fun p => p.1)
  | .wremove i => removeById notes i

/-- Run one persisting operation against the filesystem: `_read` the
canonical file, transform the collection, persist through `_write_atomic`
(a `KeyError` propagates before any write happens). -/
def runOp (op : WOp) (fs : FS) (now : Timestamp) : FS :=
  match newCollection op (read fs.canonical) now with
  | none => fs
  | some ns2 => write_atomic fs ns2

/-- Run of a persisting operation whose write-temp-file step fails midway:
whatever partial bytes reached the temporary file (`garbage`), the
`os.replace` step is never executed. -/
def runOpTempCrash (op : WOp) (fs : FS) (now : Timestamp)
    (garbage : FileState) : FS :=
  match newCollection op (read fs.canonical) now with
  | none => fs
  | some _ => writeTempStep fs garbage

/-- Events for the id-monotonicity claim: an `add` call carrying its clock
reading, or a `remove` call. -/
inductive Ev where
  | eadd (text : List Char) (tags : Option (List (List Char))) (now : Timestamp)
  | erem (note_id : Nat)

/-- Run a sequence of `add` and `remove` calls against the store. Returns
the final file state, the ids returned by the `add` calls in order, and a
flag recording whether some successful `remove` deleted the collection's
then-maximal id. A `remove` of an absent id raises and leaves the state
unchanged; the trace continues (the caller catches). -/
def runTrace : FileState → List Ev → FileState × List Nat × Bool
  | f, [] => (f, [], false)
  | f, Ev.eadd tx tg now :: rest =>
    let n := (add f tx tg now).1
    let f2 := (add f tx tg now).2
    let t := runTrace f2 rest
    (t.1, n.id :: t.2.1, t.2.2)
  | f, Ev.erem i :: rest =>
    let r := (remove f i).1
    let f2 := (remove f i).2
    let wasMax := r.isOk && (i == maxId (read f))
    let t := runTrace f2 rest
    (t.1, t.2.1, wasMax || t.2.2)

/-- End-to-end scenario of spec section 8: from a missing file, add
"buy milk" with tag "errand" at time `t1`, add "write report" at `t2`, then
`set_done 1 true` at `t3`. -/
def scenario (t1 t2 t3 : Timestamp) : Except Err Note × FileState :=
  let (_, f1) := add none ("buy milk".toList) (some ["errand".toList]) t1
  let (_, f2) := add f1 ("write report".toList) none t2
  set_done f2 1 true t3

end NoteStore

namespace NoteStore

/-- Unfolding of `maxId` on a cons cell. -/
theorem maxId_cons (n : Note) (rest : List Note) :
    maxId (n :: rest) = max n.id (maxId rest) := rfl

/-- Every id present in the collection is bounded by `maxId`. -/
theorem le_maxId_of_mem {m : Note} {ns : List Note} (h : m ∈ ns) :
    m.id ≤ maxId ns := by
  induction ns with
  | nil => cases h
  | cons n rest ih =>
    rw [ maxId_cons]
    rcases List.mem_cons.mp h with rfl | h2
    · exact le_max_left _ _
    · exact le_trans (ih h2) (le_max_right _ _)

/-- The `maxId` of a collection is zero or is attained by some note. -/
theorem maxId_attained (ns : List Note) :
    maxId ns = 0 ∨ ∃ m ∈ ns, m.id = maxId ns := by
  induction ns with
  | nil => exact Or.inl rfl
  | cons n rest ih =>
    rw [ maxId_cons]
    rcases max_choice n.id (maxId rest) with hc | hc
    · exact Or.inr ⟨n, List.mem_cons_self n rest, hc.symm⟩
    · rcases ih with h0 | ⟨m, hm, hid⟩
      · rw [hc, h0]; exact Or.inl rfl
      · exact Or.inr ⟨m, List.mem_cons_of_mem n hm, by rw [hc, hid]⟩

/-- Appending one note takes the max of the old `maxId` and the new id. -/
theorem maxId_append_single (ns : List Note) (n : Note) :
    maxId (ns ++ [n]) = max (maxId ns) n.id := by
  induction ns with
  | nil =>
    show max n.id (maxId []) = max (maxId []) n.id
    exact max_comm _ _
  | cons m rest ih =>
    show max m.id (maxId (rest ++ [n])) = max (max m.id (maxId rest)) n.id
    rw [ih, max_assoc]

end NoteStore

/-- C5: a missing backing file reads as the empty collection, and a backing
file whose content does not parse likewise reads as the empty collection;
`NoteStore.read` is a total function, so the read path never raises on parse
failure. -/
theorem C5_lenient_read :
    NoteStore.read none = [] ∧ NoteStore.read (some none) = [] :=
  ⟨rfl, rfl⟩

/-- C3: `add` assigns the id `b + 1` where `b` bounds every existing id and
is either attained by an existing note or zero (that is, the maximum
existing id across the collection, or 0 if empty), normalizes omitted tags
to the empty sequence, sets `created_at = updated_at` to the current
timestamp, appends the new note to the collection, persists the appended
collection, and returns the created note. -/
theorem C3_add_spec (f : FileState) (tx : List Char)
    (tg : Option (List (List Char))) (now : Timestamp) :
    ∃ b : Nat,
      (NoteStore.add f tx tg now).1.id = b + 1 ∧
      (∀ m ∈ NoteStore.read f, m.id ≤ b) ∧
      (b = 0 ∨ ∃ m ∈ NoteStore.read f, m.id = b) ∧
      (NoteStore.add f tx tg now).1.text = tx ∧
      (NoteStore.add f tx tg now).1.tags = tg.getD [] ∧
      (NoteStore.add f tx tg now).1.done = false ∧
      (NoteStore.add f tx tg now).1.created_at = now ∧
      (NoteStore.add f tx tg now).1.updated_at = now ∧
      (NoteStore.add f tx tg now).2
        = some (some (NoteStore.read f ++ [(NoteStore.add f tx tg now).1])) :=
  ⟨NoteStore.maxId (NoteStore.read f), rfl,
    fun _ hm => NoteStore.le_maxId_of_mem hm,
    NoteStore.maxId_attained _, rfl, rfl, rfl, rfl, rfl, rfl⟩

/-- C2: every persisting operation (add, set_done, edit, remove) persists by
writing the complete new collection to the temporary file and only then
replacing the canonical path; when the write-temp-file step fails (leaving
arbitrary garbage in the temporary file, with the replace step never
reached), the canonical file content is identical to its pre-operation
content. -/
theorem C2_atomic_write (op : NoteStore.WOp) (fs : NoteStore.FS)
    (now : Timestamp) (garbage : FileState) (ns2 : List Note) :
    (NoteStore.runOpTempCrash op fs now garbage).canonical = fs.canonical ∧
    NoteStore.write_atomic fs ns2
      = { canonical := some (some ns2), temp := none } ∧
    ((NoteStore.runOp op fs now).temp = none
      ∨ NoteStore.runOp op fs now = fs) := by
  refine ⟨?_, rfl, ?_⟩
  · cases h : NoteStore.newCollection op (NoteStore.read fs.canonical) now with
    | none => simp [NoteStore.runOpTempCrash, h]
    | some ns3 => simp [NoteStore.runOpTempCrash, h, NoteStore.writeTempStep]
  · cases h : NoteStore.newCollection op (NoteStore.read fs.canonical) now with
    | none => exact Or.inr (by simp [NoteStore.runOp, h])
    | some ns3 =>
      exact Or.inl (by
        simp [NoteStore.runOp, h, NoteStore.write_atomic,
          NoteStore.writeTempStep, NoteStore.replaceStep])

namespace NoteStore

/-- The empty needle occurs in every string. -/
theorem containsSub_nil_query (l : List Char) : containsSub [] l = true := by
  cases l <;> rfl

/-- Unfolding of `lowerChars` on the empty string. -/
theorem lowerChars_nil : lowerChars [] = [] := rfl

/-- Membership in an `insert_desc` result. -/
theorem mem_insert_desc {x a : Note} {l : List Note} :
    a ∈ insert_desc x l ↔ a = x ∨ a ∈ l := by
  induction l with
  | nil => simp [insert_desc]
  | cons y ys ih =>
    by_cases h : y.id < x.id
    · simp [insert_desc, h]
    · simp [insert_desc, h, ih]
      tauto

/-- Inserting into a list is a permutation of consing. -/
theorem insert_desc_perm (x : Note) (l : List Note) :
    (insert_desc x l).Perm (x :: l) := by
  induction l with
  | nil => exact List.Perm.refl _
  | cons y ys ih =>
    by_cases h : y.id < x.id
    · simp only [insert_desc, if_pos h]
      exact List.Perm.refl _
    · simp only [insert_desc, if_neg h]
      exact (ih.cons y).trans (List.Perm.swap x y ys)

/-- Inserting preserves the descending-by-id pairwise order. -/
theorem insert_desc_pairwise {x : Note} {l : List Note}
    (h : List.Pairwise (fun a b : Note => b.id ≤ a.id) l) :
    List.Pairwise (fun a b : Note => b.id ≤ a.id) (insert_desc x l) := by
  induction l with
  | nil => simp [insert_desc]
  | cons y ys ih =>
    rcases List.pairwise_cons.mp h with ⟨hy, hys⟩
    by_cases hlt : y.id < x.id
    · simp only [insert_desc, if_pos hlt]
      refine List.pairwise_cons.mpr ⟨?_, h⟩
      intro z hz
      rcases List.mem_cons.mp hz with rfl | hz2
      · exact le_of_lt hlt
      · exact le_trans (hy z hz2) (le_of_lt hlt)
    · simp only [insert_desc, if_neg hlt]
      refine List.pairwise_cons.mpr ⟨?_, ih hys⟩
      intro z hz
      rcases mem_insert_desc.mp hz with rfl | hz2
      · exact le_of_not_lt hlt
      · exact hy z hz2

/-- The insertion-sort fold permutes its input. -/
theorem sortAux_perm (l : List Note) :
    ∀ acc : List Note,
      (l.foldl (fun acc x => insert_desc x acc) acc).Perm (l ++ acc) := by
  induction l with
  | nil => intro acc; exact List.Perm.refl _
  | cons x xs ih =>
    intro acc
    exact (ih (insert_desc x acc)).trans
      ((List.Perm.append_left xs (insert_desc_perm x acc)).trans
        List.perm_middle)

/-- The insertion-sort fold yields a descending-by-id pairwise order. -/
theorem sortAux_pairwise (l : List Note) :
    ∀ acc : List Note,
      List.Pairwise (fun a b : Note => b.id ≤ a.id) acc →
      List.Pairwise (fun a b : Note => b.id ≤ a.id)
        (l.foldl (fun acc x => insert_desc x acc) acc) := by
  induction l with
  | nil => intro acc h; exact h
  | cons x xs ih => intro acc h; exact ih _ (insert_desc_pairwise h)

/-- Sorting permutes the collection. -/
theorem sort_desc_perm (ns : List Note) : (sort_desc ns).Perm ns := by
  have h := sortAux_perm ns []
  rw [List.append_nil] at h
  exact h

/-- The sorted collection is descending by id. -/
theorem sort_desc_pairwise (ns : List Note) :
    List.Pairwise (fun a b : Note => b.id ≤ a.id) (sort_desc ns) :=
  sortAux_pairwise ns [] List.Pairwise.nil

end NoteStore

/-- C10: searching with the empty string as query returns every note of the
collection, in on-disk order, and leaves the file unchanged. -/
theorem C10_search_empty_query (f : FileState) :
    NoteStore.search f [] = (NoteStore.read f, f) := by
  have hp : ∀ n ∈ NoteStore.read f,
      NoteStore.matches_query (NoteStore.lowerChars []) n = true := by
    intro n _
    simp only [NoteStore.lowerChars_nil, NoteStore.matches_query,
      NoteStore.containsSub_nil_query, Bool.true_or]
  show ((NoteStore.read f).filter _, f) = (NoteStore.read f, f)
  rw [List.filter_eq_self.mpr hp]

/-- C6: `list` with `include_done = false` returns, without touching the
backing file, exactly the notes whose `done` flag is false (a permutation of
the done-filtered collection, with membership characterised), ordered by id
descending; every returned note is a note of the stored collection
unchanged. -/
theorem C6_list_excludes_done (f : FileState) :
    (NoteStore.list f false).2 = f ∧
    (NoteStore.list f false).1.Perm
      ((NoteStore.read f).filter (fun n => !n.done)) ∧
    (∀ n : Note, n ∈ (NoteStore.list f false).1 ↔
      n ∈ NoteStore.read f ∧ n.done = false) ∧
    List.Pairwise (fun a b : Note => b.id ≤ a.id)
      (NoteStore.list f false).1 := by
  have h1 : NoteStore.list f false
      = (NoteStore.sort_desc ((NoteStore.read f).filter (fun n => !n.done)),
         f) := rfl
  refine ⟨by rw [h1], ?_, ?_, ?_⟩
  · rw [h1]
    exact NoteStore.sort_desc_perm _
  · intro n
    rw [h1]
    rw [(NoteStore.sort_desc_perm _).mem_iff, List.mem_filter]
    simp
  · rw [h1]
    exact NoteStore.sort_desc_pairwise _

namespace NoteStore

/-- `startsChars` decides the initial-segment relation. -/
theorem startsChars_iff (n : List Char) :
    ∀ h : List Char, startsChars n h = true ↔ n <+: h := by
  induction n with
  | nil =>
    intro h
    simp [startsChars, List.nil_prefix]
  | cons c cs ih =>
    intro h
    cases h with
    | nil => simp [startsChars]
    | cons d ds =>
      simp [startsChars, List.cons_prefix_cons, Bool.and_eq_true,
        beq_iff_eq, ih ds]

/-- `containsSub` decides the contiguous-substring relation. -/
theorem containsSub_iff (n h : List Char) :
    containsSub n h = true ↔ n <:+: h := by
  induction h with
  | nil =>
    show startsChars n [] = true ↔ n <:+: []
    rw [startsChars_iff]
    simp
  | cons d ds ih =>
    simp only [containsSub, Bool.or_eq_true, startsChars_iff, ih,
      List.infix_cons_iff]

end NoteStore

/-- C7: `search` returns, without touching the backing file, exactly the
notes whose lowercased text contains the lowercased query as a contiguous
substring or one of whose lowercased tags does (case-insensitive substring
match), and the result is a sublist of the stored collection, hence in
on-disk order with no re-sorting. -/
theorem C7_search_semantics (f : FileState) (q : List Char) :
    (NoteStore.search f q).2 = f ∧
    (NoteStore.search f q).1.Sublist (NoteStore.read f) ∧
    ∀ n : Note, n ∈ (NoteStore.search f q).1 ↔
      (n ∈ NoteStore.read f ∧
        (NoteStore.lowerChars q <:+: NoteStore.lowerChars n.text ∨
          ∃ t ∈ n.tags,
            NoteStore.lowerChars q <:+: NoteStore.lowerChars t)) := by
  refine ⟨rfl, List.filter_sublist _, ?_⟩
  intro n
  show n ∈ (NoteStore.read f).filter
      (NoteStore.matches_query (NoteStore.lowerChars q)) ↔ _
  rw [List.mem_filter]
  simp [NoteStore.matches_query, NoteStore.containsSub_iff]

namespace NoteStore

/-- When no note carries the requested id, the linear scan of `_find_idx`
with mutation fails. -/
theorem updateById_not_found {ns : List Note} {i : Nat} (g : Note → Note)
    (h : ∀ n ∈ ns, n.id ≠ i) : updateById ns i g = none := by
  induction ns with
  | nil => rfl
  | cons n rest ih =>
    have hn : (n.id == i) = false :=
      beq_eq_false_iff_ne.mpr (h n (List.mem_cons_self n rest))
    simp [updateById, hn, ih (fun m hm => h m (List.mem_cons_of_mem n hm))]

/-- When no note carries the requested id, the linear scan of `_find_idx`
with removal fails. -/
theorem removeById_not_found {ns : List Note} {i : Nat}
    (h : ∀ n ∈ ns, n.id ≠ i) : removeById ns i = none := by
  induction ns with
  | nil => rfl
  | cons n rest ih =>
    have hn : (n.id == i) = false :=
      beq_eq_false_iff_ne.mpr (h n (List.mem_cons_self n rest))
    simp [removeById, hn, ih (fun m hm => h m (List.mem_cons_of_mem n hm))]

end NoteStore

/-- C4: for an id absent from the collection, `set_done`, `edit`, and
`remove` each raise the not-found error and leave the persisted file
unchanged. -/
theorem C4_not_found_unchanged (f : FileState) (i : Nat) (d : Bool)
    (tx : List Char) (now : Timestamp)
    (h : ∀ n ∈ NoteStore.read f, n.id ≠ i) :
    NoteStore.set_done f i d now
      = (.error (.notFound i), f) ∧
    NoteStore.edit f i tx now = (.error (.notFound i), f) ∧
    NoteStore.remove f i = (.error (.notFound i), f) := by
  refine ⟨?_, ?_, ?_⟩
  · simp [NoteStore.set_done, NoteStore.updateById_not_found _ h]
  · simp [NoteStore.edit, NoteStore.updateById_not_found _ h]
  · simp [NoteStore.remove, NoteStore.removeById_not_found h]

/-- Witness for C4 at a concrete store holding one note with id 2 and the
absent id 5. -/
theorem C4_witness :
    NoteStore.set_done (some (some [⟨2, [], false, [], 0, 0⟩])) 5 true 7
      = (.error (.notFound 5), some (some [⟨2, [], false, [], 0, 0⟩])) ∧
    NoteStore.edit (some (some [⟨2, [], false, [], 0, 0⟩])) 5 [] 7
      = (.error (.notFound 5), some (some [⟨2, [], false, [], 0, 0⟩])) ∧
    NoteStore.remove (some (some [⟨2, [], false, [], 0, 0⟩])) 5
      = (.error (.notFound 5), some (some [⟨2, [], false, [], 0, 0⟩])) :=
  C4_not_found_unchanged (some (some [⟨2, [], false, [], 0, 0⟩])) 5 true [] 7
    (by decide)

namespace NoteStore

/-- Frame property of the find-and-mutate scan: with pairwise-distinct ids,
mutating the note with id `i` rewrites exactly that note and leaves the
surrounding notes and their order untouched. -/
theorem updateById_frame {ns : List Note} {i : Nat} (g : Note → Note)
    (hnd : (ns.map (fun n => n.id)).Nodup) {n0 : Note}
    (hm : n0 ∈ ns) (hid : n0.id = i) :
    ∃ pre post, ns = pre ++ n0 :: post ∧
      updateById ns i g = some (pre ++ g n0 :: post, g n0) := by
  induction ns with
  | nil => cases hm
  | cons n rest ih =>
    have hnd2 : n.id ∉ rest.map (fun m => m.id) ∧
        (rest.map (fun m => m.id)).Nodup := by
      rw [List.map_cons, List.nodup_cons] at hnd
      exact hnd
    by_cases hcase : n.id = i
    · have hn0 : n0 = n := by
        rcases List.mem_cons.mp hm with rfl | hmem
        · rfl
        · exact absurd
            (List.mem_map.mpr ⟨n0, hmem, by rw [hid, hcase]⟩) hnd2.1
      subst hn0
      refine ⟨[], rest, rfl, ?_⟩
      simp [updateById, show (n0.id == i) = true from beq_iff_eq.mpr hid]
    · have hmem : n0 ∈ rest := by
        rcases List.mem_cons.mp hm with rfl | hmem
        · exact absurd hid hcase
        · exact hmem
      rcases ih hnd2.2 hmem with ⟨pre, post, heq, hupd⟩
      refine ⟨n :: pre, post, by rw [List.cons_append, heq], ?_⟩
      have hne : (n.id == i) = false := beq_eq_false_iff_ne.mpr hcase
      simp [updateById, hne, hupd]

end NoteStore

/-- C8: when the stored ids are pairwise distinct and a note with the given
id is present, `edit` replaces only that note's text and refreshes its
`updated_at`; the note's id, done flag, tags and `created_at`, and every
other note of the collection (and their order), are unchanged in the
persisted result, and the updated note is returned. -/
theorem C8_edit_frame (f : FileState) (i : Nat) (tx : List Char)
    (now : Timestamp) (n0 : Note)
    (hnd : ((NoteStore.read f).map (fun n => n.id)).Nodup)
    (hm : n0 ∈ NoteStore.read f) (hid : n0.id = i) :
    ∃ pre post, NoteStore.read f = pre ++ n0 :: post ∧
      NoteStore.edit f i tx now
        = (.ok { n0 with text := tx, updated_at := now },
           some (some (pre ++ { n0 with text := tx, updated_at := now }
             :: post))) := by
  rcases NoteStore.updateById_frame
      (fun n => { n with text := tx, updated_at := now }) hnd hm hid
    with ⟨pre, post, heq, hupd⟩
  exact ⟨pre, post, heq, by simp [NoteStore.edit, hupd]⟩

/-- Witness for C8 at a concrete store of two notes, editing the note with
id 2 at time 9. -/
theorem C8_witness :
    ∃ pre post,
      NoteStore.read
          (some (some [⟨1, [], false, [], 0, 0⟩, ⟨2, [], false, [], 0, 0⟩]))
        = pre ++ (⟨2, [], false, [], 0, 0⟩ : Note) :: post ∧
      NoteStore.edit
          (some (some [⟨1, [], false, [], 0, 0⟩, ⟨2, [], false, [], 0, 0⟩]))
          2 [] 9
        = (.ok { (⟨2, [], false, [], 0, 0⟩ : Note) with updated_at := 9 },
           some (some (pre ++
             { (⟨2, [], false, [], 0, 0⟩ : Note) with updated_at := 9 }
               :: post))) :=
  C8_edit_frame
    (some (some [⟨1, [], false, [], 0, 0⟩, ⟨2, [], false, [], 0, 0⟩]))
    2 [] 9 ⟨2, [], false, [], 0, 0⟩ (by decide) (by decide) rfl

/-- C9: in the end-to-end scenario from an empty store (add a first note,
add a second, then `set_done 1 true`), provided the clock reading of the
`set_done` call is strictly later than that of the first `add`, `set_done`
returns note 1 with `done = true` and with `updated_at` strictly greater
than its `created_at`. -/
theorem C9_set_done_scenario (t1 t2 t3 : Timestamp) (h : t1 < t3) :
    ∃ n : Note, (NoteStore.scenario t1 t2 t3).1 = .ok n ∧ n.id = 1 ∧
      n.done = true ∧ n.created_at = t1 ∧ n.updated_at = t3 ∧
      n.created_at < n.updated_at :=
  ⟨{ id := 1, text := "buy milk".toList, done := true,
     tags := ["errand".toList], created_at := t1, updated_at := t3 },
   rfl, rfl, rfl, rfl, rfl, h⟩

/-- Witness for C9 at the concrete clock readings 0, 1, 2. -/
theorem C9_witness :
    ∃ n : Note, (NoteStore.scenario 0 1 2).1 = .ok n ∧ n.id = 1 ∧
      n.done = true ∧ n.created_at = 0 ∧ n.updated_at = 2 ∧
      n.created_at < n.updated_at :=
  C9_set_done_scenario 0 1 2 (by decide)

namespace NoteStore

/-- Removing a note never increases the collection's `maxId`. -/
theorem removeById_maxId_le {ns ns2 : List Note} {i : Nat}
    (h : removeById ns i = some ns2) : maxId ns2 ≤ maxId ns := by
  induction ns generalizing ns2 with
  | nil => simp [removeById] at h
  | cons n rest ih =>
    by_cases hni : n.id = i
    · have hb : (n.id == i) = true := beq_iff_eq.mpr hni
      simp only [removeById, hb, if_true, Option.some.injEq] at h
      subst h
      rw [ maxId_cons]
      exact le_max_right _ _
    · have hb : (n.id == i) = false := beq_eq_false_iff_ne.mpr hni
      simp only [removeById, hb, Bool.false_eq_true, if_false] at h
      cases hrec : removeById rest i with
      | none => rw [hrec] at h; cases h
      | some r2 =>
        rw [hrec] at h
        simp only [Option.some.injEq] at h
        subst h
        rw [ maxId_cons, maxId_cons]
        exact max_le_max (le_refl _) (ih hrec)

/-- Removing a note whose id is not the collection's maximum preserves
`maxId`. -/
theorem removeById_maxId_eq {ns ns2 : List Note} {i : Nat}
    (h : removeById ns i = some ns2) (hne : i ≠ maxId ns) :
    maxId ns2 = maxId ns := by
  induction ns generalizing ns2 with
  | nil => simp [removeById] at h
  | cons n rest ih =>
    rw [ maxId_cons] at hne ⊢
    by_cases hni : n.id = i
    · have hb : (n.id == i) = true := beq_iff_eq.mpr hni
      simp only [removeById, hb, if_true, Option.some.injEq] at h
      subst h
      rcases max_choice n.id (maxId rest) with hc | hc
      · rw [hc] at hne
        rw [hni] at hne
        exact absurd rfl hne
      · rw [hc]
    · have hb : (n.id == i) = false := beq_eq_false_iff_ne.mpr hni
      simp only [removeById, hb, Bool.false_eq_true, if_false] at h
      cases hrec : removeById rest i with
      | none => rw [hrec] at h; cases h
      | some r2 =>
        rw [hrec] at h
        simp only [Option.some.injEq] at h
        subst h
        rw [ maxId_cons]
        by_cases hrm : i = maxId rest
        · have hmax : max n.id (maxId rest) = n.id := by
            rcases max_choice n.id (maxId rest) with hc | hc
            · exact hc
            · rw [hc] at hne
              exact absurd hrm hne
          have hle : maxId rest ≤ n.id := by
            have h2 := le_max_right n.id (maxId rest)
            rw [hmax] at h2
            exact h2
          have hle2 : maxId r2 ≤ n.id :=
            le_trans (removeById_maxId_le hrec) hle
          rw [hmax, max_eq_left hle2]
        · rw [ih hrec hrm]

/-- Invariant of `runTrace`: while no successful remove deletes the current
maximal id, the ids returned by the adds are strictly increasing and all
strictly exceed the starting collection's `maxId`. -/
theorem runTrace_invariant (evs : List Ev) :
    ∀ f : FileState, (runTrace f evs).2.2 = false →
      List.Pairwise (fun a b : Nat => a < b) (runTrace f evs).2.1 ∧
      ∀ j ∈ (runTrace f evs).2.1, maxId (read f) < j := by
  induction evs with
  | nil =>
    intro f _
    exact ⟨List.Pairwise.nil, by intro j hj; cases hj⟩
  | cons e rest ih =>
    intro f h
    cases e with
    | eadd tx tg now =>
      simp only [runTrace] at h ⊢
      have hm2 : maxId (read ((add f tx tg now).2)) = maxId (read f) + 1 := by
        have hr : read ((add f tx tg now).2)
            = read f ++ [(add f tx tg now).1] := rfl
        rw [hr, maxId_append_single]
        show max (maxId (read f)) (maxId (read f) + 1) = maxId (read f) + 1
        exact max_eq_right (Nat.le_succ _)
      have hhead : (add f tx tg now).1.id = maxId (read f) + 1 := rfl
      rcases ih ((add f tx tg now).2) h with ⟨hpw, hbd⟩
      constructor
      · refine List.pairwise_cons.mpr ⟨?_, hpw⟩
        intro j hj
        have hj2 := hbd j hj
        rw [hm2] at hj2
        rw [hhead]
        exact hj2
      · intro j hj
        rcases List.mem_cons.mp hj with rfl | hj2
        · rw [hhead]
          exact Nat.lt_succ_self _
        · have hj3 := hbd j hj2
          rw [hm2] at hj3
          exact lt_trans (Nat.lt_succ_self _) hj3
    | erem i =>
      simp only [runTrace] at h ⊢
      rcases Bool.or_eq_false_iff.mp h with ⟨h1, h2⟩
      cases hrem : removeById (read f) i with
      | none =>
        have hf2 : (remove f i).2 = f := by
          simp [NoteStore.remove, hrem]
        rw [hf2] at h2 ⊢
        exact ih f h2
      | some ns2 =>
        have hf2 : (remove f i).2 = some (some ns2) := by
          simp [NoteStore.remove, hrem]
        have hok : (remove f i).1 = .ok () := by
          simp [NoteStore.remove, hrem]
        have hne : i ≠ maxId (read f) := by
          rw [hok] at h1
          have h1c : ((true : Bool) && (i == maxId (read f))) = false := h1
          rw [Bool.true_and] at h1c
          exact beq_eq_false_iff_ne.mp h1c
        have hmax : maxId (read ((remove f i).2)) = maxId (read f) := by
          rw [hf2]
          exact removeById_maxId_eq hrem hne
        rcases ih ((remove f i).2) h2 with ⟨hpw, hbd⟩
        refine ⟨hpw, ?_⟩
        intro j hj
        have hj2 := hbd j hj
        rw [hmax] at hj2
        exact hj2

end NoteStore

/-- C1 (amended): for every sequence of `add` calls interleaved with
arbitrary `remove` calls starting from an empty store, in which no
successful `remove` deletes the collection's then-maximal id, all ids
returned by `add` are pairwise distinct and each newly assigned id strictly
exceeds every id previously assigned by `add`. (Removing the maximal id can
make the next `add` reuse it, see the counterexample.) -/
theorem C1_ids_strictly_increase (evs : List NoteStore.Ev)
    (h : (NoteStore.runTrace none evs).2.2 = false) :
    List.Pairwise (fun a b : Nat => a < b)
      (NoteStore.runTrace none evs).2.1 :=
  (NoteStore.runTrace_invariant evs none h).1

/-- Counterexample to C1 as stated: from an empty store, `add`, then
`remove 1`, then `add` returns the id 1 twice — the ids returned by `add`
are neither pairwise distinct nor strictly increasing once a removal
deletes the current maximal id. -/
theorem C1_counterexample :
    (NoteStore.runTrace none
      [NoteStore.Ev.eadd ("a".toList) none 0, NoteStore.Ev.erem 1,
       NoteStore.Ev.eadd ("b".toList) none 1]).2.1 = [1, 1] ∧
    ¬ List.Pairwise (fun a b : Nat => a < b)
      (NoteStore.runTrace none
        [NoteStore.Ev.eadd ("a".toList) none 0, NoteStore.Ev.erem 1,
         NoteStore.Ev.eadd ("b".toList) none 1]).2.1 := by
  constructor
  · rfl
  · intro hp
    have h1 : (1 : Nat) < 1 := by
      have hq := List.pairwise_cons.mp hp
      exact hq.1 1 (List.mem_cons_self 1 [])
    exact absurd h1 (lt_irrefl 1)

/-- Witness for the amended C1: the trace add, add, remove the non-maximal
id 1, add returns the strictly increasing ids 1, 2, 3 and never removes a
maximal id. -/
theorem C1_witness :
    (NoteStore.runTrace none
      [NoteStore.Ev.eadd ("a".toList) none 0,
       NoteStore.Ev.eadd ("b".toList) none 1,
       NoteStore.Ev.erem 1,
       NoteStore.Ev.eadd ("c".toList) none 2]).2.2 = false ∧
    List.Pairwise (fun a b : Nat => a < b)
      (NoteStore.runTrace none
        [NoteStore.Ev.eadd ("a".toList) none 0,
         NoteStore.Ev.eadd ("b".toList) none 1,
         NoteStore.Ev.erem 1,
         NoteStore.Ev.eadd ("c".toList) none 2]).2.1 :=
  ⟨rfl, C1_ids_strictly_increase
    [NoteStore.Ev.eadd ("a".toList) none 0,
     NoteStore.Ev.eadd ("b".toList) none 1,
     NoteStore.Ev.erem 1,
     NoteStore.Ev.eadd ("c".toList) none 2] rfl⟩
